import Mathlib

/-
Verification development for scripts/fix_kit_case.py: a batch rewriter that
renames the uppercase module identifier KIT to lowercase kit across a tree.

The embedding below translates the script's logic into executable Lean
definitions:

 * the three regular expressions
     IMPORT_FROM_RE = ^(\s*from\s+)KIT(\b.*)$
     IMPORT_RE     = ^(\s*import\s+)KIT(\b.*)$
     KIT_DOT_RE    = \bKIT\.
   become explicit matching functions over `List Char`.  The regex
   metaclasses \s and \w are modelled on their ASCII fragment (the inputs the
   script targets are Python source files); `$` matches at the end of the
   string or just before a final newline, `.` does not cross a newline, and
   `\b` tests word/non-word adjacency exactly as in the Python engine.
 * `process_file` (lines 38-65) becomes `splitLines` / `classifyLine` /
   `reconstructText` / `processFile`.
 * `main` (lines 68-107) becomes `mainRun` over a small association-list
   filesystem, with the apply-mode backup dance of lines 92-101 given as an
   explicit list of filesystem operations (`applyOpsFor`).
-/

/- ASCII fragment of Python's \s character class. -/
def isSpace (c : Char) : Bool :=
  c == ' ' || c == '\t' || c == '\n' || c == '\r' || c == '\x0b' || c == '\x0c'

/- ASCII fragment of Python's \w character class (word characters). -/
def isWordChar (c : Char) : Bool :=
  c.isAlphanum || c == '_'

def kitU : List Char := ['K', 'I', 'T']

def kitL : List Char := ['k', 'i', 't']

def kitDotPat : List Char := ['K', 'I', 'T', '.']

def fromKw : List Char := ['f', 'r', 'o', 'm']

def impKw : List Char := ['i', 'm', 'p', 'o', 'r', 't']

/- The \b assertion of IMPORT_FROM_RE / IMPORT_RE, placed after "KIT": the
   preceding character is always the word character 'T', so the boundary
   holds iff the next character is absent or not a word character. -/
def wordBoundary : List Char → Bool
  | [] => true
  | c :: _ => !isWordChar c

/- The `$` assertion after the greedy `.*`: it can only be satisfied at the
   end of the string or just before a newline that is the final character. -/
def dollarOk (l : List Char) : Bool :=
  match l.dropWhile (fun c => c != '\n') with
  | [] => true
  | [_] => true
  | _ => false

/- re.match of ^(\s*KW\s+)KIT(\b.*)$ against a line, returning the two
   capture groups (prefix group, rest group) on success.  The greedy \s* and
   \s+ runs are forced: backtracking them would place a whitespace character
   where the keyword or "KIT" must start, so the maximal runs are the only
   candidates.  The rest group is stopped by `.` before a final newline. -/
def matchImport (kw : List Char) (line : List Char) : Option (List Char × List Char) :=
  let ws1 := line.takeWhile isSpace
  let r1 := line.dropWhile isSpace
  if kw.isPrefixOf r1 then
    let r2 := r1.drop kw.length
    let ws2 := r2.takeWhile isSpace
    let r3 := r2.dropWhile isSpace
    if ws2.isEmpty then none
    else if kitU.isPrefixOf r3 then
      let r4 := r3.drop 3
      if wordBoundary r4 && dollarOk r4 then
        some (ws1 ++ kw ++ ws2, r4.takeWhile (fun c => c != '\n'))
      else none
    else none
  else none

def startsKitDot (l : List Char) : Bool := kitDotPat.isPrefixOf l

/- KIT_DOT_RE.sub("kit.", line): left-to-right, non-overlapping replacement
   of every \bKIT\. occurrence.  The Boolean argument records whether the
   previous character was a word character (false at the start of the line),
   which is exactly the information \b needs. -/
def kitDotSubAux : Bool → List Char → List Char
  | _, [] => []
  | b, 'K' :: 'I' :: 'T' :: '.' :: rest =>
    if b then 'K' :: kitDotSubAux true ('I' :: 'T' :: '.' :: rest)
    else 'k' :: 'i' :: 't' :: '.' :: kitDotSubAux false rest
  | _, c :: rest => c :: kitDotSubAux (isWordChar c) rest

def kitDotSub (l : List Char) : List Char := kitDotSubAux false l

/- The `"KIT." in line` substring test of line 54. -/
def hasKitDot : List Char → Bool
  | [] => false
  | c :: rest => kitDotPat.isPrefixOf (c :: rest) || hasKitDot rest

/- re.search of \bKIT\. : is there a word-boundary occurrence of "KIT."? -/
def hasBKitDotAux : Bool → List Char → Bool
  | _, [] => false
  | b, c :: rest => (!b && kitDotPat.isPrefixOf (c :: rest)) || hasBKitDotAux (isWordChar c) rest

def hasBKitDot (l : List Char) : Bool := hasBKitDotAux false l

/- The single-quote character, written by code point to keep the source free
   of quote-literal noise. -/
def squote : Char := Char.ofNat 39

def dquote : Char := '"'

/- line_has_unbalanced_quotes (lines 33-35). -/
def unbalancedQuotes (l : List Char) : Bool :=
  l.count squote % 2 == 1 || l.count dquote % 2 == 1

/- The per-line body of process_file's loop (lines 44-59): try the two
   anchored import rules in order, else the guarded dotted-reference rule.
   On an import match the script rebuilds the line with an f-string that
   always appends a newline. -/
def classifyLine (l : List Char) : List Char :=
  match matchImport fromKw l with
  | some pr => pr.1 ++ kitL ++ pr.2 ++ ['\n']
  | none =>
    match matchImport impKw l with
    | some pr => pr.1 ++ kitL ++ pr.2 ++ ['\n']
    | none =>
      if hasKitDot l && !unbalancedQuotes l then kitDotSub l else l

/- f.readlines(): split the decoded text into lines, each keeping its
   trailing newline; a final line without a terminator is kept as is. -/
def splitLines : List Char → List (List Char)
  | [] => []
  | c :: cs =>
    if c = '\n' then ['\n'] :: splitLines cs
    else
      match splitLines cs with
      | [] => [[c]]
      | l :: ls => (c :: l) :: ls

/- "".join(new_lines) over the classified lines (line 62). -/
def reconstructText (content : List Char) : List Char :=
  ((splitLines content).map classifyLine).flatten

/- process_file (lines 38-65) on already-decoded content: the changed flag
   is set iff some line was rewritten, and the new text is returned only in
   that case. -/
def processFile (content : List Char) : Bool × List Char :=
  let lines := splitLines content
  let newLines := lines.map classifyLine
  if newLines = lines then (false, []) else (true, reconstructText content)

/- Filesystem model for main: an association list from paths to file data.
   A file is either decodable UTF-8 text or undecodable bytes. -/
inductive FileData where
  | text (content : List Char)
  | undecodable
deriving DecidableEq

abbrev FS := List (String × FileData)

def fsGet : FS → String → Option FileData
  | [], _ => none
  | e :: rest, p => if e.1 = p then some e.2 else fsGet rest p

def fsRemove (fs : FS) (p : String) : FS :=
  fs.filter (fun e => e.1 != p)

/- Path.write_text: create or truncate-and-write. -/
def fsWrite (fs : FS) (p : String) (d : FileData) : FS :=
  (p, d) :: fsRemove fs p

/- Path.rename: move src over dst (no-op if src does not exist). -/
def fsRename (fs : FS) (src dst : String) : FS :=
  match fsGet fs src with
  | none => fs
  | some d => fsWrite (fsRemove fs src) dst d

inductive FsOp where
  | rename (src dst : String)
  | write (p : String) (content : List Char)
  | remove (p : String)
deriving DecidableEq

def runOp (fs : FS) : FsOp → FS
  | .rename src dst => fsRename fs src dst
  | .write p c => fsWrite fs p (.text c)
  | .remove p => fsRemove fs p

def runOps (fs : FS) (ops : List FsOp) : FS :=
  ops.foldl runOp fs

/- p.with_suffix(p.suffix + ".bak") — for the script's .py candidates this
   appends ".bak" to the path. -/
def bakPath (p : String) : String := p ++ ".bak"

/- The apply-mode replacement for one changed file (lines 92-99): if no
   backup exists, rename the original to the backup path, write the new text
   to the backup path, and rename the backup back over the original path;
   otherwise overwrite the original directly. -/
def applyOpsFor (fs : FS) (p : String) (t : List Char) : List FsOp :=
  if (fsGet fs (bakPath p)).isSome then [.write p t]
  else [.rename p (bakPath p), .write (bakPath p) t, .rename (bakPath p) p]

/- Modelled from the spec: the replacement step sequence that section 4.4
   describes — "rename the original to the backup path, then write the new
   text to the original path name, then remove the backup".  This definition
   follows the spec's words only and exists to be compared with the
   source-derived `applyOpsFor`. -/
def claimedApplySeq (p : String) (t : List Char) : List FsOp :=
  [.rename p (bakPath p), .write p t, .remove (bakPath p)]

/- open(path, encoding="utf-8") + readlines: decodable text is returned,
   undecodable or unreadable files raise (modelled as Except.error carrying
   the offending path). -/
def readText (fs : FS) (p : String) : Except String (List Char) :=
  match fsGet fs p with
  | some (.text c) => .ok c
  | some .undecodable => .error p
  | none => .error p

deriving instance DecidableEq for Except

/- Whether reading a candidate file succeeds (used to state which files
   decode cleanly). -/
def readOk (fs : FS) (p : String) : Bool :=
  match readText fs p with
  | .ok _ => true
  | .error _ => false

/- The first loop of main (lines 85-88): process every candidate file,
   collecting (path, new text) for the changed ones.  An exception from
   process_file propagates immediately, before any later file is read. -/
def collectChanges (fs : FS) : List String → Except String (List (String × List Char))
  | [] => .ok []
  | p :: ps =>
    match readText fs p with
    | .error e => .error e
    | .ok c =>
      let res := processFile c
      match collectChanges fs ps with
      | .error e => .error e
      | .ok rest => .ok (if res.1 then (p, res.2) :: rest else rest)

def noFilesMsg : String := "No python files found under src/ or tests/ to process."

def noMatchesMsg : String := "No matches found — nothing to change."

def wouldChangeMsg (p : String) : String := "Would change: " ++ p

def appliedMsg (p : String) : String := "Applied change: " ++ p

def totalMsg (n : Nat) : String := "Total files changed: " ++ toString n

/- The second loop of main (lines 90-102): print each changed path, and in
   apply mode perform the backup dance and print the confirmation. -/
def applyLoop (applyFlag : Bool) : FS → List (String × List Char) → FS × List String
  | fs, [] => (fs, [])
  | fs, (p, t) :: rest =>
    if applyFlag then
      let fs2 := runOps fs (applyOpsFor fs p t)
      let next := applyLoop applyFlag fs2 rest
      (next.1, wouldChangeMsg p :: appliedMsg p :: next.2)
    else
      let next := applyLoop applyFlag fs rest
      (next.1, wouldChangeMsg p :: next.2)

/- main (lines 68-104) given the discovered candidate list: returns the
   final filesystem and either the printed lines or the propagated error.
   All reads happen in collectChanges, before any write; an uncaught
   exception there leaves the filesystem exactly as it was. -/
def mainRun (applyFlag : Bool) (fs : FS) (pyFiles : List String) :
    FS × Except String (List String) :=
  if pyFiles.isEmpty then (fs, .ok [noFilesMsg])
  else
    match collectChanges fs pyFiles with
    | .error e => (fs, .error e)
    | .ok changes =>
      if changes.isEmpty then (fs, .ok [noMatchesMsg])
      else
        let res := applyLoop applyFlag fs changes
        (res.1, .ok (res.2 ++ [totalMsg changes.length]))

/- The relation "s arises from r by replacing some word-boundary KIT. blocks
   by kit.".  `kitDotSubAux` realizes one instance of it; the import-rule
   matcher transfers along it. -/
inductive SubRel : List Char → List Char → Prop where
  | nil : SubRel [] []
  | keep (c : Char) {r s : List Char} : SubRel r s → SubRel (c :: r) (c :: s)
  | block {r s : List Char} :
      SubRel r s → SubRel ('K' :: 'I' :: 'T' :: '.' :: r) ('k' :: 'i' :: 't' :: '.' :: s)

/- Well-formed line lists as produced by readlines: every line is nonempty,
   a newline occurs only as a line's last character, and every line except
   possibly the last ends with a newline. -/
inductive GoodLines : List (List Char) → Prop where
  | nil : GoodLines []
  | last (b : List Char) : b ≠ [] → '\n' ∉ b → GoodLines [b]
  | cons (b : List Char) {ls : List (List Char)} :
      '\n' ∉ b → GoodLines ls → GoodLines ((b ++ ['\n']) :: ls)

/- ----------------------------------------------------------------- -/
/- General list helpers. -/

lemma isPrefixOf_app (t l : List Char) : t.isPrefixOf (t ++ l) = true := by
  induction t with
  | nil => simp [List.isPrefixOf]
  | cons c t' ih => simp [List.isPrefixOf, ih]

lemma isPrefixOf_ex : ∀ (t l : List Char), t.isPrefixOf l = true → l = t ++ l.drop t.length := by
  intro t
  induction t with
  | nil => intro l _; simp
  | cons c t' ih =>
    intro l h
    cases l with
    | nil => simp [List.isPrefixOf] at h
    | cons d l' =>
      simp only [List.isPrefixOf, Bool.and_eq_true, beq_iff_eq] at h
      obtain ⟨rfl, h2⟩ := h
      simpa using ih l' h2

lemma takeWhile_app_of (p : Char → Bool) (ws : List Char) (d : Char) (t : List Char)
    (hws : ∀ c ∈ ws, p c = true) (hd : p d = false) :
    (ws ++ d :: t).takeWhile p = ws ∧ (ws ++ d :: t).dropWhile p = d :: t := by
  induction ws with
  | nil => simp [List.takeWhile_cons, List.dropWhile_cons, hd]
  | cons c ws' ih =>
    have hc : p c = true := hws c (by simp)
    have ih' := ih (fun x hx => hws x (by simp [hx]))
    simp [List.takeWhile_cons, List.dropWhile_cons, hc, ih'.1, ih'.2]

/- ----------------------------------------------------------------- -/
/- Facts about the \bKIT\. substitution. -/

lemma startsKitDot_shape {l : List Char} (h : startsKitDot l = true) :
    l = 'K' :: 'I' :: 'T' :: '.' :: l.drop 4 := by
  have := isPrefixOf_ex kitDotPat l h
  simpa [kitDotPat] using this

lemma subAux_pat_t (r : List Char) :
    kitDotSubAux true ('K' :: 'I' :: 'T' :: '.' :: r)
      = 'K' :: kitDotSubAux true ('I' :: 'T' :: '.' :: r) := rfl

lemma subAux_pat_f (r : List Char) :
    kitDotSubAux false ('K' :: 'I' :: 'T' :: '.' :: r)
      = 'k' :: 'i' :: 't' :: '.' :: kitDotSubAux false r := rfl

lemma subAux_keep (b : Bool) (c : Char) (cs : List Char) (h : startsKitDot (c :: cs) = false) :
    kitDotSubAux b (c :: cs) = c :: kitDotSubAux (isWordChar c) cs := by
  apply kitDotSubAux.eq_3
  intro r1 hc hcs
  subst hc
  subst hcs
  rw [show ('K' :: 'I' :: 'T' :: '.' :: r1 : List Char) = kitDotPat ++ r1 from rfl] at h
  rw [startsKitDot, isPrefixOf_app] at h
  exact Bool.true_eq_false.mp h

lemma subAux_it (x : List Char) :
    kitDotSubAux true ('I' :: 'T' :: '.' :: x) = 'I' :: 'T' :: '.' :: kitDotSubAux false x := by
  rw [subAux_keep true 'I' _ (by simp [startsKitDot, kitDotPat, List.isPrefixOf])]
  rw [subAux_keep _ 'T' _ (by simp [startsKitDot, kitDotPat, List.isPrefixOf])]
  rw [subAux_keep _ '.' _ (by simp [startsKitDot, kitDotPat, List.isPrefixOf])]
  simp only [show isWordChar 'I' = true from by decide, show isWordChar 'T' = true from by decide,
    show isWordChar '.' = false from by decide]

lemma subRel_len {r s : List Char} (h : SubRel r s) : r.length = s.length := by
  induction h with
  | nil => rfl
  | keep c h ih => simpa using ih
  | block h ih => simpa using ih

lemma subRel_sub_aux :
    ∀ (n : Nat) (b : Bool) (l : List Char), l.length ≤ n → SubRel l (kitDotSubAux b l) := by
  intro n
  induction n with
  | zero =>
    intro b l hl
    have : l = [] := List.eq_nil_of_length_eq_zero (Nat.le_zero.mp hl)
    subst this
    exact SubRel.nil
  | succ n ih =>
    intro b l hl
    cases l with
    | nil => exact SubRel.nil
    | cons c cs =>
      by_cases hs : startsKitDot (c :: cs) = true
      · obtain ⟨r, hr⟩ : ∃ r, c :: cs = 'K' :: 'I' :: 'T' :: '.' :: r :=
          ⟨_, startsKitDot_shape hs⟩
        rw [hr] at hl ⊢
        have hrn : r.length ≤ n := by simp at hl; omega
        cases b with
        | true =>
          rw [subAux_pat_t, subAux_it]
          exact SubRel.keep 'K' (SubRel.keep 'I' (SubRel.keep 'T' (SubRel.keep '.'
            (ih false r hrn))))
        | false =>
          rw [subAux_pat_f]
          exact SubRel.block (ih false r hrn)
      · rw [subAux_keep b c cs (Bool.not_eq_true _ ▸ hs)]
        exact SubRel.keep c (ih (isWordChar c) cs (by simp at hl; omega))

lemma subRel_sub (b : Bool) (l : List Char) : SubRel l (kitDotSubAux b l) :=
  subRel_sub_aux l.length b l (le_refl _)

lemma subRel_space {r s : List Char} (h : SubRel r s) :
    r.takeWhile isSpace = s.takeWhile isSpace ∧
      SubRel (r.dropWhile isSpace) (s.dropWhile isSpace) := by
  induction h with
  | nil => exact ⟨rfl, SubRel.nil⟩
  | keep c h ih =>
    cases hc : isSpace c with
    | true =>
      refine ⟨?_, ?_⟩
      · simp [List.takeWhile_cons, hc, ih.1]
      · simpa [List.dropWhile_cons, hc] using ih.2
    | false =>
      refine ⟨?_, ?_⟩
      · simp [List.takeWhile_cons, hc]
      · simpa [List.dropWhile_cons, hc] using SubRel.keep c h
  | block h ih =>
    have h1 : isSpace 'K' = false := by decide
    have h2 : isSpace 'k' = false := by decide
    refine ⟨?_, ?_⟩
    · simp [List.takeWhile_cons, h1, h2]
    · simpa [List.dropWhile_cons, h1, h2] using SubRel.block h

lemma subRel_kw :
    ∀ (t : List Char), 'k' ∉ t → 'K' ∉ t → ∀ {r s : List Char}, SubRel r s →
      t.isPrefixOf s = true →
      t.isPrefixOf r = true ∧ SubRel (r.drop t.length) (s.drop t.length) := by
  intro t
  induction t with
  | nil =>
    intro _ _ r s h _
    refine ⟨by simp [List.isPrefixOf], by simpa using h⟩
  | cons c t' ih =>
    intro hk hK r s h hp
    cases h with
    | nil => simp [List.isPrefixOf] at hp
    | keep d h' =>
      simp only [List.isPrefixOf, Bool.and_eq_true, beq_iff_eq] at hp
      obtain ⟨rfl, hp'⟩ := hp
      obtain ⟨h1, h2⟩ := ih (fun hx => hk (List.mem_cons_of_mem _ hx))
        (fun hx => hK (List.mem_cons_of_mem _ hx)) h' hp'
      refine ⟨?_, ?_⟩
      · simp [List.isPrefixOf, h1]
      · simpa using h2
    | block h' =>
      simp only [List.isPrefixOf, Bool.and_eq_true, beq_iff_eq] at hp
      exact absurd (by simp [hp.1]) hk

lemma subRel_kit {r s : List Char} (h : SubRel r s) (hp : kitU.isPrefixOf s = true) :
    kitU.isPrefixOf r = true ∧ SubRel (r.drop 3) (s.drop 3) := by
  cases h with
  | nil => simp [kitU, List.isPrefixOf] at hp
  | block h1 => simp [kitU, List.isPrefixOf] at hp
  | keep c h1 =>
    simp only [kitU, List.isPrefixOf, Bool.and_eq_true, beq_iff_eq] at hp
    obtain ⟨hc, hp⟩ := hp
    subst hc
    cases h1 with
    | nil => simp [List.isPrefixOf] at hp
    | block h2 => simp [List.isPrefixOf] at hp
    | keep c2 h2 =>
      simp only [List.isPrefixOf, Bool.and_eq_true, beq_iff_eq] at hp
      obtain ⟨hc2, hp⟩ := hp
      subst hc2
      cases h2 with
      | nil => simp [List.isPrefixOf] at hp
      | block h3 => simp [List.isPrefixOf] at hp
      | keep c3 h3 =>
        simp only [List.isPrefixOf, Bool.and_eq_true, beq_iff_eq] at hp
        obtain ⟨hc3, _⟩ := hp
        subst hc3
        exact ⟨by simp [kitU, List.isPrefixOf], by simpa using h3⟩

lemma subRel_boundary {r s : List Char} (h : SubRel r s) (hb : wordBoundary s = true) :
    wordBoundary r = true := by
  cases h with
  | nil => rfl
  | keep c h' => simpa [wordBoundary] using hb
  | block h' =>
    have : isWordChar 'k' = true := by decide
    simp [wordBoundary, this] at hb

lemma dollarOk_cons_ne {c : Char} (hc : c ≠ '\n') (w : List Char) :
    dollarOk (c :: w) = dollarOk w := by
  have : (c != '\n') = true := by simpa using hc
  simp [dollarOk, List.dropWhile_cons, this]

lemma dollarOk_nl (w : List Char) : dollarOk ('\n' :: w) = w.isEmpty := by
  cases w <;> simp [dollarOk, List.dropWhile_cons]

lemma subRel_dollar {r s : List Char} (h : SubRel r s) : dollarOk r = dollarOk s := by
  induction h with
  | nil => rfl
  | keep c h' ih =>
    by_cases hc : c = '\n'
    · subst hc
      rw [dollarOk_nl, dollarOk_nl]
      have hlen := subRel_len h'
      rename_i r' s' 
      cases r' with
      | nil => cases s' with
        | nil => rfl
        | cons _ _ => simp at hlen
      | cons _ _ => cases s' with
        | nil => simp at hlen
        | cons _ _ => rfl
    · rw [dollarOk_cons_ne hc, dollarOk_cons_ne hc]
      exact ih
  | block h' ih =>
    rw [dollarOk_cons_ne (show ('K':Char) ≠ '\n' from by decide),
      dollarOk_cons_ne (show ('I':Char) ≠ '\n' from by decide),
      dollarOk_cons_ne (show ('T':Char) ≠ '\n' from by decide),
      dollarOk_cons_ne (show ('.':Char) ≠ '\n' from by decide),
      dollarOk_cons_ne (show ('k':Char) ≠ '\n' from by decide),
      dollarOk_cons_ne (show ('i':Char) ≠ '\n' from by decide),
      dollarOk_cons_ne (show ('t':Char) ≠ '\n' from by decide),
      dollarOk_cons_ne (show ('.':Char) ≠ '\n' from by decide)]
    exact ih

lemma subAux_head_eq {b : Bool} {x : List Char} {c : Char} {s : List Char}
    (h : kitDotSubAux b x = c :: s) (hck : c ≠ 'k') (hcK : c ≠ 'K') :
    ∃ x', x = c :: x' ∧ s = kitDotSubAux (isWordChar c) x' := by
  cases x with
  | nil => simp [kitDotSubAux] at h
  | cons d ds =>
    by_cases hs : startsKitDot (d :: ds) = true
    · obtain ⟨r, hr⟩ : ∃ r, d :: ds = 'K' :: 'I' :: 'T' :: '.' :: r :=
        ⟨_, startsKitDot_shape hs⟩
      rw [hr] at h
      cases b with
      | true =>
        rw [subAux_pat_t] at h
        injection h with h1 _
        exact absurd h1.symm hcK
      | false =>
        rw [subAux_pat_f] at h
        injection h with h1 _
        exact absurd h1.symm hck
    · rw [subAux_keep b d ds (Bool.not_eq_true _ ▸ hs)] at h
      injection h with h1 h2
      subst h1
      exact ⟨ds, rfl, h2.symm⟩

lemma startsKitDot_keep_sub {c : Char} {cs : List Char} (b : Bool)
    (hs : startsKitDot (c :: cs) = false) :
    startsKitDot (c :: kitDotSubAux b cs) = false := by
  cases hx : startsKitDot (c :: kitDotSubAux b cs) with
  | false => rfl
  | true =>
    exfalso
    have hshape := startsKitDot_shape hx
    injection hshape with hc hrest
    obtain ⟨x1, hx1, he1⟩ := subAux_head_eq hrest (by decide) (by decide)
    obtain ⟨x2, hx2, he2⟩ := subAux_head_eq he1.symm (by decide) (by decide)
    obtain ⟨x3, hx3, _⟩ := subAux_head_eq he2.symm (by decide) (by decide)
    subst hc
    rw [hx1, hx2, hx3] at hs
    rw [show ('K' :: 'I' :: 'T' :: '.' :: x3 : List Char) = kitDotPat ++ x3 from rfl] at hs
    rw [startsKitDot, isPrefixOf_app] at hs
    exact Bool.true_eq_false.mp hs

lemma subAux_kitL (b : Bool) (x : List Char) :
    kitDotSubAux b ('k' :: 'i' :: 't' :: '.' :: x)
      = 'k' :: 'i' :: 't' :: '.' :: kitDotSubAux false x := by
  rw [subAux_keep b 'k' _ (by simp [startsKitDot, kitDotPat, List.isPrefixOf])]
  rw [subAux_keep _ 'i' _ (by simp [startsKitDot, kitDotPat, List.isPrefixOf])]
  rw [subAux_keep _ 't' _ (by simp [startsKitDot, kitDotPat, List.isPrefixOf])]
  rw [subAux_keep _ '.' _ (by simp [startsKitDot, kitDotPat, List.isPrefixOf])]
  simp only [show isWordChar 'k' = true from by decide, show isWordChar 'i' = true from by decide,
    show isWordChar 't' = true from by decide, show isWordChar '.' = false from by decide]

lemma subAux_idem :
    ∀ (n : Nat) (b : Bool) (l : List Char), l.length ≤ n →
      kitDotSubAux b (kitDotSubAux b l) = kitDotSubAux b l := by
  intro n
  induction n with
  | zero =>
    intro b l hl
    have : l = [] := List.eq_nil_of_length_eq_zero (Nat.le_zero.mp hl)
    subst this
    rfl
  | succ n ih =>
    intro b l hl
    cases l with
    | nil => rfl
    | cons c cs =>
      by_cases hs : startsKitDot (c :: cs) = true
      · obtain ⟨r, hr⟩ : ∃ r, c :: cs = 'K' :: 'I' :: 'T' :: '.' :: r :=
          ⟨_, startsKitDot_shape hs⟩
        rw [hr] at hl ⊢
        have hrn : r.length ≤ n := by simp at hl; omega
        cases b with
        | true =>
          rw [subAux_pat_t, subAux_it, subAux_pat_t, subAux_it, ih false r hrn]
        | false =>
          rw [subAux_pat_f, subAux_kitL, ih false r hrn]
      · have hs' : startsKitDot (c :: cs) = false := Bool.not_eq_true _ ▸ hs
        rw [subAux_keep b c cs hs']
        rw [subAux_keep b c _ (startsKitDot_keep_sub _ hs')]
        rw [ih (isWordChar c) cs (by simp at hl; omega)]

lemma kitDotSub_idem (l : List Char) : kitDotSub (kitDotSub l) = kitDotSub l :=
  subAux_idem l.length false l (le_refl _)

lemma hasBAux_sub :
    ∀ (n : Nat) (b : Bool) (l : List Char), l.length ≤ n →
      hasBKitDotAux b (kitDotSubAux b l) = false := by
  intro n
  induction n with
  | zero =>
    intro b l hl
    have : l = [] := List.eq_nil_of_length_eq_zero (Nat.le_zero.mp hl)
    subst this
    rfl
  | succ n ih =>
    intro b l hl
    cases l with
    | nil => rfl
    | cons c cs =>
      by_cases hs : startsKitDot (c :: cs) = true
      · obtain ⟨r, hr⟩ : ∃ r, c :: cs = 'K' :: 'I' :: 'T' :: '.' :: r :=
          ⟨_, startsKitDot_shape hs⟩
        rw [hr] at hl ⊢
        have hrn : r.length ≤ n := by simp at hl; omega
        cases b with
        | true =>
          rw [subAux_pat_t, subAux_it]
          simp only [hasBKitDotAux, Bool.not_true, Bool.false_and, Bool.false_or,
            show isWordChar 'K' = true from by decide, show isWordChar 'I' = true from by decide,
            show isWordChar 'T' = true from by decide, show isWordChar '.' = false from by decide]
          exact ih false r hrn
        | false =>
          rw [subAux_pat_f]
          simp only [hasBKitDotAux,
            show isWordChar 'k' = true from by decide, show isWordChar 'i' = true from by decide,
            show isWordChar 't' = true from by decide, show isWordChar '.' = false from by decide,
            show kitDotPat.isPrefixOf ('k' :: 'i' :: 't' :: '.' :: kitDotSubAux false r) = false
              from by simp [kitDotPat, List.isPrefixOf],
            Bool.not_true, Bool.not_false, Bool.false_and, Bool.and_false, Bool.true_and,
            Bool.false_or]
          exact ih false r hrn
      · have hs' : startsKitDot (c :: cs) = false := Bool.not_eq_true _ ▸ hs
        rw [subAux_keep b c cs hs']
        have hpre : kitDotPat.isPrefixOf (c :: kitDotSubAux (isWordChar c) cs) = false :=
          startsKitDot_keep_sub _ hs'
        simp only [hasBKitDotAux, hpre, Bool.and_false, Bool.false_or]
        exact ih (isWordChar c) cs (by simp at hl; omega)

lemma hasBKitDot_sub (l : List Char) : hasBKitDot (kitDotSub l) = false :=
  hasBAux_sub l.length false l (le_refl _)

lemma hasKitDot_of_hasB : ∀ (l : List Char) (b : Bool),
    hasBKitDotAux b l = true → hasKitDot l = true := by
  intro l
  induction l with
  | nil => intro b h; simp [hasBKitDotAux] at h
  | cons c cs ih =>
    intro b h
    simp only [hasBKitDotAux, Bool.or_eq_true, Bool.and_eq_true] at h
    rcases h with ⟨_, hp⟩ | hrec
    · simp [hasKitDot, hp]
    · simp [hasKitDot, ih _ hrec]

/- ----------------------------------------------------------------- -/
/- Facts about the anchored import matcher. -/

lemma matchImport_eq_some {kw l pre rest : List Char}
    (h : matchImport kw l = some (pre, rest)) :
    ∃ ws1 ws2 r4,
      pre = ws1 ++ kw ++ ws2 ∧
      l = ws1 ++ kw ++ ws2 ++ kitU ++ r4 ∧
      (∀ c ∈ ws1, isSpace c = true) ∧ (∀ c ∈ ws2, isSpace c = true) ∧ ws2 ≠ [] ∧
      wordBoundary r4 = true ∧ dollarOk r4 = true ∧
      rest = r4.takeWhile (fun c => c != '\n') := by
  simp only [matchImport] at h
  split_ifs at h with hA hB hC hD
  · simp only [Option.some.injEq, Prod.mk.injEq] at h
    refine ⟨l.takeWhile isSpace, ((l.dropWhile isSpace).drop kw.length).takeWhile isSpace,
      (((l.dropWhile isSpace).drop kw.length).dropWhile isSpace).drop 3,
      h.1.symm, ?_, ?_, ?_, ?_, ?_, ?_, h.2.symm⟩
    · have e3 : ((l.dropWhile isSpace).drop kw.length).dropWhile isSpace
          = kitU ++ (((l.dropWhile isSpace).drop kw.length).dropWhile isSpace).drop 3 :=
        isPrefixOf_ex kitU _ hC
      have e2 : (l.dropWhile isSpace).drop kw.length
          = ((l.dropWhile isSpace).drop kw.length).takeWhile isSpace ++
            (kitU ++ (((l.dropWhile isSpace).drop kw.length).dropWhile isSpace).drop 3) := by
        conv_lhs => rw [← List.takeWhile_append_dropWhile isSpace
          ((l.dropWhile isSpace).drop kw.length)]
        rw [← e3]
      have e1 : l.dropWhile isSpace
          = kw ++ (l.dropWhile isSpace).drop kw.length := isPrefixOf_ex kw _ hA
      conv_lhs => rw [← List.takeWhile_append_dropWhile isSpace l]
      conv_lhs => rw [e1]
      conv_lhs => rw [e2]
      simp [List.append_assoc]
    · exact fun c hc => List.mem_takeWhile_imp hc
    · exact fun c hc => List.mem_takeWhile_imp hc
    · intro hh
      exact hB (by simp [hh])
    · exact (Bool.and_eq_true _ _ ▸ hD).1
    · exact (Bool.and_eq_true _ _ ▸ hD).2

lemma matchImport_none_sub {kw : List Char} (hk : 'k' ∉ kw) (hK : 'K' ∉ kw)
    {l : List Char} (h : matchImport kw l = none) :
    matchImport kw (kitDotSub l) = none := by
  cases hm : matchImport kw (kitDotSub l) with
  | none => rfl
  | some pr =>
    exfalso
    simp only [matchImport] at hm
    split_ifs at hm with hA hB hC hD
    · have R0 : SubRel l (kitDotSub l) := subRel_sub false l
      obtain ⟨etw, R1⟩ := subRel_space R0
      obtain ⟨hAl, R2⟩ := subRel_kw kw hk hK R1 hA
      obtain ⟨etw2, R3⟩ := subRel_space R2
      obtain ⟨hCl, R4⟩ := subRel_kit R3 hC
      have hDs := Bool.and_eq_true _ _ ▸ hD
      have hbl := subRel_boundary R4 hDs.1
      have hdl : dollarOk ((((l.dropWhile isSpace).drop kw.length).dropWhile isSpace).drop 3)
          = true := by
        rw [subRel_dollar R4]
        exact hDs.2
      have hBl : (((l.dropWhile isSpace).drop kw.length).takeWhile isSpace).isEmpty = false := by
        rw [etw2]
        cases hx : ((((kitDotSub l).dropWhile isSpace).drop kw.length).takeWhile isSpace).isEmpty
        · rfl
        · exact absurd hx hB
      have hsome : matchImport kw l
          = some (l.takeWhile isSpace ++ kw ++
              ((l.dropWhile isSpace).drop kw.length).takeWhile isSpace,
            ((((l.dropWhile isSpace).drop kw.length).dropWhile isSpace).drop 3).takeWhile
              (fun c => c != '\n')) := by
        simp only [matchImport]
        rw [if_pos hAl, if_neg (by simp [hBl]), if_pos hCl, if_pos (by simp [hbl, hdl])]
      rw [h] at hsome
      exact absurd hsome (by simp)

lemma matchImport_importOut {kw kw2 : List Char}
    (hkw : kw = fromKw ∨ kw = impKw) (hkw2 : kw2 = fromKw ∨ kw2 = impKw)
    {ws1 ws2 rest : List Char}
    (hw1 : ∀ c ∈ ws1, isSpace c = true) (hw2 : ∀ c ∈ ws2, isSpace c = true) :
    matchImport kw2 (ws1 ++ kw ++ ws2 ++ 'k' :: rest) = none := by
  have hksp : isSpace 'k' = false := by decide
  rcases hkw with rfl | rfl <;> rcases hkw2 with rfl | rfl
  · have hsp := takeWhile_app_of isSpace ws1 'f' ('r' :: 'o' :: 'm' :: (ws2 ++ 'k' :: rest))
      hw1 (by decide)
    simp only [matchImport]
    rw [show (ws1 ++ fromKw ++ ws2 ++ 'k' :: rest : List Char)
        = ws1 ++ 'f' :: ('r' :: 'o' :: 'm' :: (ws2 ++ 'k' :: rest)) from by
      simp [fromKw, List.append_assoc]]
    rw [hsp.1, hsp.2]
    rw [show ('f' :: ('r' :: 'o' :: 'm' :: (ws2 ++ 'k' :: rest)) : List Char)
        = fromKw ++ (ws2 ++ 'k' :: rest) from by simp [fromKw]]
    rw [if_pos (isPrefixOf_app fromKw _), List.drop_left]
    have hsp2 := takeWhile_app_of isSpace ws2 'k' rest hw2 hksp
    rw [hsp2.1, hsp2.2]
    by_cases hw2e : ws2.isEmpty = true
    · rw [if_pos hw2e]
    · rw [if_neg hw2e, if_neg (by simp [kitU, List.isPrefixOf])]
  · have hsp := takeWhile_app_of isSpace ws1 'f' ('r' :: 'o' :: 'm' :: (ws2 ++ 'k' :: rest))
      hw1 (by decide)
    simp only [matchImport]
    rw [show (ws1 ++ fromKw ++ ws2 ++ 'k' :: rest : List Char)
        = ws1 ++ 'f' :: ('r' :: 'o' :: 'm' :: (ws2 ++ 'k' :: rest)) from by
      simp [fromKw, List.append_assoc]]
    rw [hsp.2]
    rw [if_neg (by simp [impKw, List.isPrefixOf])]
  · have hsp := takeWhile_app_of isSpace ws1 'i' ('m' :: 'p' :: 'o' :: 'r' :: 't' ::
      (ws2 ++ 'k' :: rest)) hw1 (by decide)
    simp only [matchImport]
    rw [show (ws1 ++ impKw ++ ws2 ++ 'k' :: rest : List Char)
        = ws1 ++ 'i' :: ('m' :: 'p' :: 'o' :: 'r' :: 't' :: (ws2 ++ 'k' :: rest)) from by
      simp [impKw, List.append_assoc]]
    rw [hsp.2]
    rw [if_neg (by simp [fromKw, List.isPrefixOf])]
  · have hsp := takeWhile_app_of isSpace ws1 'i' ('m' :: 'p' :: 'o' :: 'r' :: 't' ::
      (ws2 ++ 'k' :: rest)) hw1 (by decide)
    simp only [matchImport]
    rw [show (ws1 ++ impKw ++ ws2 ++ 'k' :: rest : List Char)
        = ws1 ++ 'i' :: ('m' :: 'p' :: 'o' :: 'r' :: 't' :: (ws2 ++ 'k' :: rest)) from by
      simp [impKw, List.append_assoc]]
    rw [hsp.1, hsp.2]
    rw [show ('i' :: ('m' :: 'p' :: 'o' :: 'r' :: 't' :: (ws2 ++ 'k' :: rest)) : List Char)
        = impKw ++ (ws2 ++ 'k' :: rest) from by simp [impKw]]
    rw [if_pos (isPrefixOf_app impKw _), List.drop_left]
    have hsp2 := takeWhile_app_of isSpace ws2 'k' rest hw2 hksp
    rw [hsp2.1, hsp2.2]
    by_cases hw2e : ws2.isEmpty = true
    · rw [if_pos hw2e]
    · rw [if_neg hw2e, if_neg (by simp [kitU, List.isPrefixOf])]

/- ----------------------------------------------------------------- -/
/- Behavior of the line classifier. -/

lemma classify_of_from {l : List Char} {pr : List Char × List Char}
    (h : matchImport fromKw l = some pr) :
    classifyLine l = pr.1 ++ kitL ++ pr.2 ++ ['\n'] := by
  simp [classifyLine, h]

lemma classify_of_imp {l : List Char} {pr : List Char × List Char}
    (h1 : matchImport fromKw l = none) (h2 : matchImport impKw l = some pr) :
    classifyLine l = pr.1 ++ kitL ++ pr.2 ++ ['\n'] := by
  simp [classifyLine, h1, h2]

lemma classify_of_none {l : List Char}
    (h1 : matchImport fromKw l = none) (h2 : matchImport impKw l = none) :
    classifyLine l = if hasKitDot l && !unbalancedQuotes l then kitDotSub l else l := by
  simp [classifyLine, h1, h2]

lemma classify_classify_of_none {l : List Char}
    (h1 : matchImport fromKw l = none) (h2 : matchImport impKw l = none) :
    classifyLine (classifyLine l) = classifyLine l := by
  rw [classify_of_none h1 h2]
  by_cases hcond : (hasKitDot l && !unbalancedQuotes l) = true
  · rw [if_pos hcond]
    have hn1 : matchImport fromKw (kitDotSub l) = none :=
      matchImport_none_sub (by decide) (by decide) h1
    have hn2 : matchImport impKw (kitDotSub l) = none :=
      matchImport_none_sub (by decide) (by decide) h2
    rw [classify_of_none hn1 hn2]
    by_cases hcond2 : (hasKitDot (kitDotSub l) && !unbalancedQuotes (kitDotSub l)) = true
    · rw [if_pos hcond2, kitDotSub_idem]
    · rw [if_neg hcond2]
  · rw [if_neg hcond, classify_of_none h1 h2, if_neg hcond]

lemma classify_importOut_none {l : List Char} {pr : List Char × List Char} (kw2 : List Char)
    (hkw2 : kw2 = fromKw ∨ kw2 = impKw)
    (h : matchImport fromKw l = some pr ∨
      (matchImport fromKw l = none ∧ matchImport impKw l = some pr)) :
    matchImport kw2 (pr.1 ++ kitL ++ pr.2 ++ ['\n']) = none := by
  have key : ∀ (kw : List Char), kw = fromKw ∨ kw = impKw →
      matchImport kw l = some pr →
      matchImport kw2 (pr.1 ++ kitL ++ pr.2 ++ ['\n']) = none := by
    intro kw hkw hm
    obtain ⟨ws1, ws2, r4, hpre, _, hw1, hw2, _, _, _, _⟩ := matchImport_eq_some hm
    rw [hpre]
    rw [show (ws1 ++ kw ++ ws2 ++ kitL ++ pr.2 ++ ['\n'] : List Char)
        = ws1 ++ kw ++ ws2 ++ 'k' :: ('i' :: 't' :: (pr.2 ++ ['\n'])) from by
      simp [kitL, List.append_assoc]]
    exact matchImport_importOut hkw hkw2 hw1 hw2
  rcases h with hm | ⟨_, hm⟩
  · exact key fromKw (Or.inl rfl) hm
  · exact key impKw (Or.inr rfl) hm

/- ----------------------------------------------------------------- -/
/- Claim C1. -/

/-- C1 counterexample: the line "import KIT KIT.x" (with terminator) is
rewritten by the plain-import rule to "import kit KIT.x", and a second
application of the classifier rewrites it again (the dotted-reference rule
now fires on the remainder), so the output of one pass is not a fixed
point of the classifier. -/
theorem c1_counterexample :
    classifyLine (classifyLine ("import KIT KIT.x\n".toList))
      ≠ classifyLine ("import KIT KIT.x\n".toList) := by decide

/-- C1 (amended): the classifier is idempotent from the second application
on — for every input line, the line produced by two passes is a fixed point
of the classifier.  (As stated the claim fails: a single pass need not
produce a fixed point when an import line's remainder itself contains a
word-boundary "KIT." occurrence; see the counterexample.) -/
theorem c1_classifier_two_pass_fixed_point (l : List Char) :
    classifyLine (classifyLine (classifyLine l)) = classifyLine (classifyLine l) := by
  cases hf : matchImport fromKw l with
  | some pr =>
    have hy := classify_of_from hf
    have hn1 : matchImport fromKw (classifyLine l) = none := by
      rw [hy]
      exact classify_importOut_none fromKw (Or.inl rfl) (Or.inl hf)
    have hn2 : matchImport impKw (classifyLine l) = none := by
      rw [hy]
      exact classify_importOut_none impKw (Or.inr rfl) (Or.inl hf)
    exact classify_classify_of_none hn1 hn2
  | none =>
    cases hi : matchImport impKw l with
    | some pr =>
      have hy := classify_of_imp hf hi
      have hn1 : matchImport fromKw (classifyLine l) = none := by
        rw [hy]
        exact classify_importOut_none fromKw (Or.inl rfl) (Or.inr ⟨hf, hi⟩)
      have hn2 : matchImport impKw (classifyLine l) = none := by
        rw [hy]
        exact classify_importOut_none impKw (Or.inr rfl) (Or.inr ⟨hf, hi⟩)
      exact classify_classify_of_none hn1 hn2
    | none =>
      have h2 := classify_classify_of_none hf hi
      rw [h2, h2]

/- ----------------------------------------------------------------- -/
/- Claims C2, C4, C7. -/

lemma dropWhile_head_false {p : Char → Bool} {l : List Char} {c : Char} {tl : List Char}
    (h : l.dropWhile p = c :: tl) : p c = false := by
  induction l with
  | nil => simp at h
  | cons d ds ih =>
    rw [List.dropWhile_cons] at h
    by_cases hd : p d = true
    · rw [if_pos hd] at h
      exact ih h
    · rw [if_neg hd] at h
      injection h with h1 _
      subst h1
      simpa using hd

lemma dollarOk_split {r4 : List Char} (h : dollarOk r4 = true) :
    r4 = r4.takeWhile (fun c => c != '\n') ∨
      r4 = r4.takeWhile (fun c => c != '\n') ++ ['\n'] := by
  cases hdw : r4.dropWhile (fun c => c != '\n') with
  | nil =>
    left
    conv_lhs => rw [← List.takeWhile_append_dropWhile (fun c => c != '\n') r4]
    rw [hdw]
    simp
  | cons c tl =>
    cases tl with
    | nil =>
      right
      have hc := dropWhile_head_false hdw
      have hc' : c = '\n' := by simpa using hc
      conv_lhs => rw [← List.takeWhile_append_dropWhile (fun c => c != '\n') r4]
      rw [hdw, hc']
    | cons c2 tl2 =>
      exfalso
      simp [dollarOk, hdw] at h

/-- C2 counterexample: the spec's sample line "msg = 'Contains KIT. literal'"
has an even single-quote count (two quotes), so the quote-imbalance guard
does not fire and the dotted-reference rule does rewrite the line — it is
not left unchanged by the classifier. -/
theorem c2_counterexample :
    classifyLine ("msg = ".toList ++ squote :: "Contains KIT. literal".toList ++ [squote])
      ≠ "msg = ".toList ++ squote :: "Contains KIT. literal".toList ++ [squote] := by
  decide

/-- C2 (amended): the guard fires on an odd quote count: every line that
matches neither import shape and has an odd single- or double-quote count is
left unchanged by the classifier; the sample line must be taken without its
closing quote (odd count) to exercise the guard. -/
theorem c2_unbalanced_guard (l : List Char)
    (h1 : matchImport fromKw l = none) (h2 : matchImport impKw l = none)
    (h3 : unbalancedQuotes l = true) : classifyLine l = l := by
  rw [classify_of_none h1 h2]
  simp [h3]

/-- C2 witness: the unterminated variant of the sample line has an odd
quote count and is left unchanged. -/
theorem c2_unbalanced_guard_witness :
    unbalancedQuotes ("msg = ".toList ++ squote :: "Contains KIT. literal".toList) = true ∧
    classifyLine ("msg = ".toList ++ squote :: "Contains KIT. literal".toList)
      = "msg = ".toList ++ squote :: "Contains KIT. literal".toList :=
  ⟨by decide, c2_unbalanced_guard _ (by decide) (by decide) (by decide)⟩

/-- C4 counterexample: on the unterminated input line
"from KIT.database import models" the rewriter's f-string appends a newline,
so beyond KIT-to-kit a further character changes: the output is the expected
text plus a trailing newline, not the expected text itself. -/
theorem c4_counterexample :
    classifyLine ("from KIT.database import models".toList)
      = "from kit.database import models\n".toList ∧
    classifyLine ("from KIT.database import models".toList)
      ≠ "from kit.database import models".toList := by
  decide

/-- C4 (amended): for every line matched by the import-from rule the output
is the prefix group (leading whitespace and keyword) followed by "kit",
the remainder group verbatim, and a newline terminator that is always
appended; the input line is those same parts with "KIT", with or without
the final newline.  So a newline-terminated line changes only in KIT
becoming kit, while a final line lacking its terminator additionally gains
one. -/
theorem c4_import_from_rewrite {l pre rest : List Char}
    (h : matchImport fromKw l = some (pre, rest)) :
    classifyLine l = pre ++ kitL ++ rest ++ ['\n'] ∧
      (l = pre ++ kitU ++ rest ++ ['\n'] ∨ l = pre ++ kitU ++ rest) := by
  refine ⟨by simpa using classify_of_from h, ?_⟩
  obtain ⟨ws1, ws2, r4, hpre, hl, _, _, _, _, hdol, hrest⟩ := matchImport_eq_some h
  rcases dollarOk_split hdol with hr4 | hr4
  · right
    have hr : r4 = rest := hr4.trans hrest.symm
    rw [hl, hpre, ← hr]
  · left
    have hr : r4 = rest ++ ['\n'] := by
      rw [hr4, hrest]
    rw [hl, hpre, hr]
    simp [List.append_assoc]

/-- C4 witness: the exactness instance on the terminated sample line. -/
theorem c4_witness :
    matchImport fromKw ("from KIT.database import models\n".toList)
      = some ("from ".toList, ".database import models".toList) ∧
    (classifyLine ("from KIT.database import models\n".toList)
        = "from ".toList ++ kitL ++ ".database import models".toList ++ ['\n'] ∧
      ("from KIT.database import models\n".toList
          = "from ".toList ++ kitU ++ ".database import models".toList ++ ['\n'] ∨
        "from KIT.database import models\n".toList
          = "from ".toList ++ kitU ++ ".database import models".toList)) :=
  ⟨by decide, c4_import_from_rewrite (by decide)⟩

/-- C7: on a line matching neither import shape, if the line has a
word-boundary occurrence of "KIT." and both quote counts are even, the
classifier applies the dotted-reference substitution and the result has no
word-boundary occurrence of "KIT." left (every occurrence was replaced);
and the line "x = KITCHEN.value" is left unchanged, since KITCHEN is not
the identifier KIT before a dot. -/
theorem c7_dotted_rule :
    (∀ l : List Char, matchImport fromKw l = none → matchImport impKw l = none →
        hasBKitDot l = true → unbalancedQuotes l = false →
        classifyLine l = kitDotSub l ∧ hasBKitDot (kitDotSub l) = false) ∧
    classifyLine ("x = KITCHEN.value\n".toList) = "x = KITCHEN.value\n".toList := by
  constructor
  · intro l h1 h2 h3 h4
    refine ⟨?_, hasBKitDot_sub l⟩
    rw [classify_of_none h1 h2]
    simp [hasKitDot_of_hasB l false h3, h4]
  · decide

/-- C7 witness: the dotted-reference rule on the spec's sample line. -/
theorem c7_witness :
    hasBKitDot ("result = KIT.search(query)\n".toList) = true ∧
    unbalancedQuotes ("result = KIT.search(query)\n".toList) = false ∧
    (classifyLine ("result = KIT.search(query)\n".toList)
        = kitDotSub ("result = KIT.search(query)\n".toList) ∧
      hasBKitDot (kitDotSub ("result = KIT.search(query)\n".toList)) = false) :=
  ⟨by decide, by decide, c7_dotted_rule.1 _ (by decide) (by decide) (by decide) (by decide)⟩

/- ----------------------------------------------------------------- -/
/- Claim C6: line structure of the reconstructed text. -/

lemma splitLines_good (c : List Char) : GoodLines (splitLines c) := by
  induction c with
  | nil => exact GoodLines.nil
  | cons d cs ih =>
    by_cases hd : d = '\n'
    · subst hd
      rw [show splitLines ('\n' :: cs) = ['\n'] :: splitLines cs from by simp [splitLines]]
      exact GoodLines.cons [] (by simp) ih
    · rw [show splitLines (d :: cs)
          = (match splitLines cs with
             | [] => [[d]]
             | l :: ls => (d :: l) :: ls) from by simp [splitLines, hd]]
      cases hsl : splitLines cs with
      | nil =>
        refine GoodLines.last [d] (by simp) ?_
        intro hmem
        simp only [List.mem_singleton] at hmem
        exact hd hmem.symm
      | cons l ls =>
        rw [hsl] at ih
        cases ih with
        | last b hne hnl =>
          refine GoodLines.last (d :: l) (by simp) ?_
          intro hmem
          rcases List.mem_cons.mp hmem with hh | hh
          · exact hd hh.symm
          · exact hnl hh
        | cons b hnl hgood =>
          refine GoodLines.cons (d :: b) ?_ hgood
          intro hmem
          rcases List.mem_cons.mp hmem with hh | hh
          · exact hd hh.symm
          · exact hnl hh

lemma splitLines_nlFree {b : List Char} (hnl : '\n' ∉ b) (hne : b ≠ []) :
    splitLines b = [b] := by
  induction b with
  | nil => exact absurd rfl hne
  | cons c cs ih =>
    have hc : ¬(c = '\n') := by
      intro h
      exact hnl (by simp [h])
    by_cases hcs : cs = []
    · subst hcs
      simp [splitLines, hc]
    · have := ih (fun h => hnl (by simp [h])) hcs
      rw [show splitLines (c :: cs)
          = (match splitLines cs with
             | [] => [[c]]
             | l :: ls => (c :: l) :: ls) from by simp [splitLines, hc]]
      rw [this]

lemma splitLines_append_nl {b : List Char} (rest : List Char) (hnl : '\n' ∉ b) :
    splitLines (b ++ '\n' :: rest) = (b ++ ['\n']) :: splitLines rest := by
  induction b with
  | nil => simp [splitLines]
  | cons c cs ih =>
    have hc : ¬(c = '\n') := by
      intro h
      exact hnl (by simp [h])
    have := ih (fun h => hnl (by simp [h]))
    rw [show ((c :: cs) ++ '\n' :: rest : List Char) = c :: (cs ++ '\n' :: rest) from rfl]
    rw [show splitLines (c :: (cs ++ '\n' :: rest))
        = (match splitLines (cs ++ '\n' :: rest) with
           | [] => [[c]]
           | l :: ls => (c :: l) :: ls) from by simp [splitLines, hc]]
    rw [this]
    rfl

lemma goodLines_resplit {ps : List (List Char)} (h : GoodLines ps) :
    splitLines ps.flatten = ps := by
  induction h with
  | nil => rfl
  | last b hne hnl =>
    rw [show ([b] : List (List Char)).flatten = b from by simp]
    exact splitLines_nlFree hnl hne
  | cons b hnl hgood ih =>
    rename_i ls
    rw [show ((b ++ ['\n']) :: ls).flatten = b ++ '\n' :: ls.flatten from by simp]
    rw [splitLines_append_nl _ hnl, ih]

lemma nlFree_left_part :
    ∀ (u : List Char) {v b : List Char}, u ++ v = b ++ ['\n'] → v ≠ [] → '\n' ∉ b →
      '\n' ∉ u := by
  intro u
  induction u with
  | nil => intro v b _ _ _; simp
  | cons x u' ih =>
    intro v b he hv hnl
    cases b with
    | nil =>
      exfalso
      have he' : x :: (u' ++ v) = ['\n'] := by simpa using he
      injection he' with _ h2
      exact hv (List.append_eq_nil.mp h2).2
    | cons b0 btl =>
      have he' : x :: (u' ++ v) = b0 :: (btl ++ ['\n']) := by simpa using he
      injection he' with h1 h2
      subst h1
      have hx : x ≠ '\n' := fun h => hnl (by simp [h])
      have hu := ih h2 hv (fun h => hnl (by simp [h]))
      intro hmem
      rcases List.mem_cons.mp hmem with hh | hh
      · exact hx hh.symm
      · exact hu hh

lemma subRel_nlFree {r s : List Char} (h : SubRel r s) : '\n' ∉ r → '\n' ∉ s := by
  induction h with
  | nil => intro _; simp
  | keep c h ih =>
    intro hnl hmem
    rcases List.mem_cons.mp hmem with hh | hh
    · exact hnl (List.mem_cons.mpr (Or.inl hh))
    · exact ih (fun hx => hnl (List.mem_cons.mpr (Or.inr hx))) hh
  | block h ih =>
    intro hnl hmem
    simp only [List.mem_cons] at hmem
    rcases hmem with hh | hh | hh | hh | hh
    · exact absurd hh (by decide)
    · exact absurd hh (by decide)
    · exact absurd hh (by decide)
    · exact absurd hh (by decide)
    · refine ih ?_ hh
      intro hx
      apply hnl
      simp only [List.mem_cons]
      exact Or.inr (Or.inr (Or.inr (Or.inr hx)))

lemma subRel_nlEnd {r s : List Char} (h : SubRel r s) :
    ∀ {b : List Char}, r = b ++ ['\n'] → '\n' ∉ b →
      ∃ b2, s = b2 ++ ['\n'] ∧ '\n' ∉ b2 := by
  induction h with
  | nil =>
    intro b hb _
    exact absurd hb (by simp)
  | keep c h ih =>
    intro b hb hnl
    cases b with
    | nil =>
      simp only [List.nil_append] at hb
      injection hb with h1 h2
      subst h1
      rename_i r' s' 
      have hs : s' = [] := by
        have := subRel_len h
        rw [h2] at this
        simpa using (List.length_eq_zero.mp this.symm)
      refine ⟨[], by simp [hs], by simp⟩
    | cons b0 btl =>
      injection hb with h1 h2
      subst h1
      obtain ⟨b2, hs, hnl2⟩ := ih h2 (fun hx => hnl (List.mem_cons.mpr (Or.inr hx)))
      refine ⟨c :: b2, by simp [hs], ?_⟩
      intro hmem
      rcases List.mem_cons.mp hmem with hh | hh
      · exact hnl (List.mem_cons.mpr (Or.inl hh))
      · exact hnl2 hh
  | block h ih =>
    intro b hb hnl
    cases b with
    | nil =>
      simp only [List.nil_append] at hb
      injection hb with h1 _
      exact absurd h1 (by decide)
    | cons c0 b1 =>
      injection hb with h1 hb
      cases b1 with
      | nil =>
        injection hb with h2 _
        exact absurd h2 (by decide)
      | cons c1 b2 =>
        injection hb with h2 hb
        cases b2 with
        | nil =>
          injection hb with h3 _
          exact absurd h3 (by decide)
        | cons c2 b3 =>
          injection hb with h3 hb
          cases b3 with
          | nil =>
            injection hb with h4 _
            exact absurd h4 (by decide)
          | cons c3 b4 =>
            injection hb with h4 hb
            subst h1
            subst h2
            subst h3
            subst h4
            obtain ⟨b5, hs, hnl5⟩ := ih hb (fun hx => hnl (by
              simp only [List.mem_cons]
              exact Or.inr (Or.inr (Or.inr (Or.inr hx)))))
            refine ⟨'k' :: 'i' :: 't' :: '.' :: b5, by simp [hs], ?_⟩
            intro hmem
            simp only [List.mem_cons] at hmem
            rcases hmem with hh | hh | hh | hh | hh
            · exact absurd hh (by decide)
            · exact absurd hh (by decide)
            · exact absurd hh (by decide)
            · exact absurd hh (by decide)
            · exact hnl5 hh

lemma subRel_ne_nil {r s : List Char} (h : SubRel r s) (hne : r ≠ []) : s ≠ [] := by
  intro hs
  apply hne
  have := subRel_len h
  rw [hs] at this
  exact List.length_eq_zero.mp (by simpa using this)

lemma nlFree_takeWhile (l : List Char) : '\n' ∉ l.takeWhile (fun c => c != '\n') := by
  intro hmem
  have := List.mem_takeWhile_imp hmem
  simp at this

lemma classify_nlFree {b : List Char} (hne : b ≠ []) (hnl : '\n' ∉ b) :
    GoodLines [classifyLine b] := by
  have key : ∀ (kw : List Char) (pr : List Char × List Char), kw = fromKw ∨ kw = impKw →
      matchImport kw b = some pr → classifyLine b = pr.1 ++ kitL ++ pr.2 ++ ['\n'] →
      GoodLines [classifyLine b] := by
    intro kw pr _ hm hcl
    obtain ⟨ws1, ws2, r4, hpre, hl, _, _, _, _, _, hrest⟩ := matchImport_eq_some hm
    have hw1 : '\n' ∉ ws1 := fun hx => hnl (by rw [hl]; simp [List.mem_append, hx])
    have hkw : '\n' ∉ kw := fun hx => hnl (by rw [hl]; simp [List.mem_append, hx])
    have hw2 : '\n' ∉ ws2 := fun hx => hnl (by rw [hl]; simp [List.mem_append, hx])
    have hbody : '\n' ∉ pr.1 ++ kitL ++ pr.2 := by
      intro hmem
      rcases List.mem_append.mp hmem with h1 | h1
      · rcases List.mem_append.mp h1 with h2 | h2
        · rw [hpre] at h2
          rcases List.mem_append.mp h2 with h3 | h3
          · rcases List.mem_append.mp h3 with h4 | h4
            · exact hw1 h4
            · exact hkw h4
          · exact hw2 h3
        · exact absurd h2 (by decide)
      · rw [hrest] at h1
        exact nlFree_takeWhile r4 h1
    rw [hcl]
    rw [show (pr.1 ++ kitL ++ pr.2 ++ ['\n'] : List Char)
        = (pr.1 ++ kitL ++ pr.2) ++ ['\n'] from by simp [List.append_assoc]]
    exact GoodLines.cons (pr.1 ++ kitL ++ pr.2) hbody GoodLines.nil
  cases hf : matchImport fromKw b with
  | some pr => exact key fromKw pr (Or.inl rfl) hf (classify_of_from hf)
  | none =>
    cases hi : matchImport impKw b with
    | some pr => exact key impKw pr (Or.inr rfl) hi (classify_of_imp hf hi)
    | none =>
      rw [classify_of_none hf hi]
      by_cases hcond : (hasKitDot b && !unbalancedQuotes b) = true
      · rw [if_pos hcond]
        exact GoodLines.last (kitDotSub b) (subRel_ne_nil (subRel_sub false b) hne)
          (subRel_nlFree (subRel_sub false b) hnl)
      · rw [if_neg hcond]
        exact GoodLines.last b hne hnl

lemma classify_term {b : List Char} (hnl : '\n' ∉ b) :
    ∃ b2, classifyLine (b ++ ['\n']) = b2 ++ ['\n'] ∧ '\n' ∉ b2 := by
  have key : ∀ (kw : List Char) (pr : List Char × List Char),
      matchImport kw (b ++ ['\n']) = some pr →
      classifyLine (b ++ ['\n']) = pr.1 ++ kitL ++ pr.2 ++ ['\n'] →
      ∃ b2, classifyLine (b ++ ['\n']) = b2 ++ ['\n'] ∧ '\n' ∉ b2 := by
    intro kw pr hm hcl
    obtain ⟨ws1, ws2, r4, hpre, hl, _, _, _, _, _, hrest⟩ := matchImport_eq_some hm
    have hpre_nl : '\n' ∉ ws1 ++ kw ++ ws2 := by
      have hl' := hl
      have heq : (ws1 ++ kw ++ ws2) ++ (kitU ++ r4) = b ++ ['\n'] := by
        simp only [List.append_assoc] at hl' ⊢
        exact hl'.symm
      exact nlFree_left_part (ws1 ++ kw ++ ws2) heq (by simp [kitU]) hnl
    refine ⟨pr.1 ++ kitL ++ pr.2, hcl, ?_⟩
    intro hmem
    rcases List.mem_append.mp hmem with h1 | h1
    · rcases List.mem_append.mp h1 with h2 | h2
      · rw [hpre] at h2
        exact hpre_nl h2
      · exact absurd h2 (by decide)
    · rw [hrest] at h1
      exact nlFree_takeWhile r4 h1
  cases hf : matchImport fromKw (b ++ ['\n']) with
  | some pr => exact key fromKw pr hf (classify_of_from hf)
  | none =>
    cases hi : matchImport impKw (b ++ ['\n']) with
    | some pr => exact key impKw pr hi (classify_of_imp hf hi)
    | none =>
      rw [classify_of_none hf hi]
      by_cases hcond : (hasKitDot (b ++ ['\n']) && !unbalancedQuotes (b ++ ['\n'])) = true
      · rw [if_pos hcond]
        exact subRel_nlEnd (subRel_sub false (b ++ ['\n'])) rfl hnl
      · rw [if_neg hcond]
        exact ⟨b, rfl, hnl⟩

lemma classify_good {ps : List (List Char)} (h : GoodLines ps) :
    GoodLines (ps.map classifyLine) := by
  induction h with
  | nil => exact GoodLines.nil
  | last b hne hnl => simpa using classify_nlFree hne hnl
  | cons b hnl hgood ih =>
    rename_i ls
    obtain ⟨b2, he, hnl2⟩ := classify_term hnl
    rw [show ((b ++ ['\n']) :: ls).map classifyLine
        = classifyLine (b ++ ['\n']) :: ls.map classifyLine from by simp]
    rw [he]
    exact GoodLines.cons b2 hnl2 ih

/-- C6: line-count preservation.  Splitting the reconstructed text back into
lines yields exactly the classified lines in their original order (so no
line is dropped, merged, or reordered), and in particular the line count of
the reconstructed text equals that of the original content — including for
content whose last line lacks a trailing newline. -/
theorem c6_line_count_preservation (content : List Char) :
    splitLines (reconstructText content) = (splitLines content).map classifyLine ∧
    (splitLines (reconstructText content)).length = (splitLines content).length := by
  have hres : splitLines (reconstructText content) = (splitLines content).map classifyLine :=
    goodLines_resplit (classify_good (splitLines_good content))
  refine ⟨hres, ?_⟩
  rw [hres]
  simp

/- ----------------------------------------------------------------- -/
/- Filesystem lemmas and the controller claims. -/

lemma fsGet_fsRemove_self (fs : FS) (p : String) : fsGet (fsRemove fs p) p = none := by
  induction fs with
  | nil => rfl
  | cons e rest ih =>
    cases hb : (e.1 != p) with
    | true =>
      rw [show fsRemove (e :: rest) p = e :: fsRemove rest p from by
        simp [fsRemove, List.filter_cons, hb]]
      have hne : ¬(e.1 = p) := by simpa using hb
      simp [fsGet, hne, ih]
    | false =>
      rw [show fsRemove (e :: rest) p = fsRemove rest p from by
        simp [fsRemove, List.filter_cons, hb]]
      exact ih

lemma fsGet_fsRemove_ne (fs : FS) {p q : String} (h : q ≠ p) :
    fsGet (fsRemove fs p) q = fsGet fs q := by
  induction fs with
  | nil => rfl
  | cons e rest ih =>
    cases hb : (e.1 != p) with
    | true =>
      rw [show fsRemove (e :: rest) p = e :: fsRemove rest p from by
        simp [fsRemove, List.filter_cons, hb]]
      by_cases heq : e.1 = q
      · simp [fsGet, heq]
      · simp [fsGet, heq, ih]
    | false =>
      rw [show fsRemove (e :: rest) p = fsRemove rest p from by
        simp [fsRemove, List.filter_cons, hb]]
      have he : e.1 = p := by simpa using hb
      have hne : ¬(e.1 = q) := by
        rw [he]
        exact fun hh => h hh.symm
      simp [fsGet, hne, ih]

lemma fsGet_fsWrite_self (fs : FS) (p : String) (d : FileData) :
    fsGet (fsWrite fs p d) p = some d := by
  simp [fsWrite, fsGet]

lemma fsGet_fsWrite_ne (fs : FS) (d : FileData) {p q : String} (h : q ≠ p) :
    fsGet (fsWrite fs p d) q = fsGet fs q := by
  have : ¬(p = q) := fun hh => h hh.symm
  simp only [fsWrite, fsGet, this, if_false]
  exact fsGet_fsRemove_ne fs h

lemma fsRename_of_get {fs : FS} {src : String} {d : FileData}
    (h : fsGet fs src = some d) (dst : String) :
    fsRename fs src dst = fsWrite (fsRemove fs src) dst d := by
  simp [fsRename, h]

lemma bakPath_ne (p : String) : bakPath p ≠ p := by
  intro h
  have hlen := congrArg String.length h
  rw [bakPath, String.length_append] at hlen
  have h4 : ".bak".length = 4 := rfl
  omega

/-- C3 counterexample: the code's apply-mode step sequence is not the claimed
"rename to backup, write to original, remove backup" sequence, and after its
first two steps (rename to backup, then write the new text to the backup
path) the filesystem holds only the new text at the backup path — the
original content is on no path at that intermediate state. -/
theorem c3_counterexample :
    applyOpsFor [("src/a.py", FileData.text ("from KIT import x\n".toList))] "src/a.py"
        ("from kit import x\n".toList)
      ≠ claimedApplySeq "src/a.py" ("from kit import x\n".toList) ∧
    runOps [("src/a.py", FileData.text ("from KIT import x\n".toList))]
        (List.take 2 (applyOpsFor [("src/a.py", FileData.text ("from KIT import x\n".toList))]
          "src/a.py" ("from kit import x\n".toList)))
      = [("src/a.py.bak", FileData.text ("from kit import x\n".toList))] ∧
    FileData.text ("from kit import x\n".toList)
      ≠ FileData.text ("from KIT import x\n".toList) := by
  decide

/-- C3 (amended): for a changed file whose backup path does not exist yet,
the replacement is the step sequence "rename the original to the backup
path, then write the new text to the backup path, then rename the backup
back to the original path".  The final state holds the new text at the
original path and no backup; but after the write step the original content
is no longer on disk at either path, so the sequence can lose the original
content if interrupted there. -/
theorem c3_backup_swap (fs : FS) (p : String) (old t : List Char)
    (hp : fsGet fs p = some (FileData.text old)) (hbak : fsGet fs (bakPath p) = none) :
    applyOpsFor fs p t
      = [FsOp.rename p (bakPath p), FsOp.write (bakPath p) t, FsOp.rename (bakPath p) p] ∧
    fsGet (runOps fs (applyOpsFor fs p t)) p = some (FileData.text t) ∧
    fsGet (runOps fs (applyOpsFor fs p t)) (bakPath p) = none ∧
    fsGet (runOps fs (List.take 1 (applyOpsFor fs p t))) (bakPath p)
      = some (FileData.text old) ∧
    fsGet (runOps fs (List.take 1 (applyOpsFor fs p t))) p = none ∧
    fsGet (runOps fs (List.take 2 (applyOpsFor fs p t))) (bakPath p)
      = some (FileData.text t) ∧
    fsGet (runOps fs (List.take 2 (applyOpsFor fs p t))) p = none := by
  have hne : bakPath p ≠ p := bakPath_ne p
  have hne' : p ≠ bakPath p := fun h => hne h.symm
  have hops : applyOpsFor fs p t
      = [FsOp.rename p (bakPath p), FsOp.write (bakPath p) t, FsOp.rename (bakPath p) p] := by
    simp [applyOpsFor, hbak]
  have h1 : fsRename fs p (bakPath p) = fsWrite (fsRemove fs p) (bakPath p)
      (FileData.text old) := fsRename_of_get hp (bakPath p)
  have g1b : fsGet (fsRename fs p (bakPath p)) (bakPath p) = some (FileData.text old) := by
    rw [h1]
    exact fsGet_fsWrite_self _ _ _
  have g1p : fsGet (fsRename fs p (bakPath p)) p = none := by
    rw [h1, fsGet_fsWrite_ne _ _ hne']
    exact fsGet_fsRemove_self fs p
  have g2b : fsGet (fsWrite (fsRename fs p (bakPath p)) (bakPath p) (FileData.text t))
      (bakPath p) = some (FileData.text t) := fsGet_fsWrite_self _ _ _
  have g2p : fsGet (fsWrite (fsRename fs p (bakPath p)) (bakPath p) (FileData.text t)) p
      = none := by
    rw [fsGet_fsWrite_ne _ _ hne']
    exact g1p
  have h3 : fsRename (fsWrite (fsRename fs p (bakPath p)) (bakPath p) (FileData.text t))
      (bakPath p) p
      = fsWrite (fsRemove (fsWrite (fsRename fs p (bakPath p)) (bakPath p)
          (FileData.text t)) (bakPath p)) p (FileData.text t) :=
    fsRename_of_get g2b p
  refine ⟨hops, ?_, ?_, ?_, ?_, ?_, ?_⟩
  · rw [hops]
    show fsGet (runOp (runOp (runOp fs (FsOp.rename p (bakPath p)))
      (FsOp.write (bakPath p) t)) (FsOp.rename (bakPath p) p)) p = some (FileData.text t)
    simp only [runOp, h3]
    exact fsGet_fsWrite_self _ _ _
  · rw [hops]
    show fsGet (runOp (runOp (runOp fs (FsOp.rename p (bakPath p)))
      (FsOp.write (bakPath p) t)) (FsOp.rename (bakPath p) p)) (bakPath p) = none
    simp only [runOp, h3]
    rw [fsGet_fsWrite_ne _ _ hne]
    exact fsGet_fsRemove_self _ _
  · rw [hops]
    show fsGet (runOp fs (FsOp.rename p (bakPath p))) (bakPath p) = some (FileData.text old)
    simpa only [runOp] using g1b
  · rw [hops]
    show fsGet (runOp fs (FsOp.rename p (bakPath p))) p = none
    simpa only [runOp] using g1p
  · rw [hops]
    show fsGet (runOp (runOp fs (FsOp.rename p (bakPath p))) (FsOp.write (bakPath p) t))
      (bakPath p) = some (FileData.text t)
    simpa only [runOp] using g2b
  · rw [hops]
    show fsGet (runOp (runOp fs (FsOp.rename p (bakPath p))) (FsOp.write (bakPath p) t)) p
      = none
    simpa only [runOp] using g2p

/-- C3 witness: the amended backup-swap behavior at a concrete file. -/
theorem c3_backup_swap_witness :
    fsGet [("src/a.py", FileData.text ("from KIT import x\n".toList))] "src/a.py"
      = some (FileData.text ("from KIT import x\n".toList)) ∧
    fsGet [("src/a.py", FileData.text ("from KIT import x\n".toList))] (bakPath "src/a.py")
      = none ∧
    applyOpsFor [("src/a.py", FileData.text ("from KIT import x\n".toList))] "src/a.py"
        ("from kit import x\n".toList)
      = [FsOp.rename "src/a.py" (bakPath "src/a.py"),
         FsOp.write (bakPath "src/a.py") ("from kit import x\n".toList),
         FsOp.rename (bakPath "src/a.py") "src/a.py"] :=
  ⟨by decide, by decide,
    (c3_backup_swap [("src/a.py", FileData.text ("from KIT import x\n".toList))] "src/a.py"
      ("from KIT import x\n".toList) ("from kit import x\n".toList)
      (by decide) (by decide)).1⟩

lemma applyLoop_dry (fs : FS) (chs : List (String × List Char)) :
    applyLoop false fs chs = (fs, chs.map (fun pc => wouldChangeMsg pc.1)) := by
  induction chs with
  | nil => rfl
  | cons pc rest ih =>
    obtain ⟨pp, tt⟩ := pc
    simp [applyLoop, ih]

/-- C5 counterexample: a dry run over one candidate file that needs no
change prints only the informational "nothing to change" message and
returns — it does not end by printing a total count, so the count is not
printed when it is zero. -/
theorem c5_counterexample :
    (mainRun false [("src/a.py", FileData.text ("x = 1\n".toList))] ["src/a.py"]).2
      = Except.ok [noMatchesMsg] ∧ noMatchesMsg ≠ totalMsg 0 := by
  decide

/-- C5 (amended): in dry-run mode, when at least one file would change the
controller prints exactly one "Would change" line per changed file, in
order, followed by the total count; when no file would change it prints
only an informational message and no count (and similarly when no
candidate files exist). -/
theorem c5_dry_run_report (fs : FS) (files : List String)
    (changes : List (String × List Char))
    (hc : collectChanges fs files = .ok changes) (hne : changes ≠ []) :
    (mainRun false fs files).2
      = .ok (changes.map (fun pc => wouldChangeMsg pc.1) ++ [totalMsg changes.length]) := by
  have hfileNe : files.isEmpty = false := by
    cases files with
    | nil =>
      rw [show collectChanges fs [] = Except.ok [] from rfl] at hc
      injection hc with hh
      exact absurd hh.symm hne
    | cons _ _ => rfl
  have hchNe : changes.isEmpty = false := by
    cases changes with
    | nil => exact absurd rfl hne
    | cons _ _ => rfl
  simp only [mainRun, hfileNe, Bool.false_eq_true, if_false, hc, hchNe, applyLoop_dry]

/-- C5 witness: a one-file run with one change prints the path line and the
count line. -/
theorem c5_witness :
    collectChanges [("src/a.py", FileData.text ("from KIT import x\n".toList))] ["src/a.py"]
      = Except.ok [("src/a.py", "from kit import x\n".toList)] ∧
    ([("src/a.py", "from kit import x\n".toList)] : List (String × List Char)) ≠ [] ∧
    (mainRun false [("src/a.py", FileData.text ("from KIT import x\n".toList))]
        ["src/a.py"]).2
      = .ok (([("src/a.py", "from kit import x\n".toList)] : List (String × List Char)).map
            (fun pc => wouldChangeMsg pc.1)
          ++ [totalMsg ([("src/a.py", "from kit import x\n".toList)] :
              List (String × List Char)).length]) :=
  ⟨by decide, by decide, c5_dry_run_report _ _ _ (by decide) (by decide)⟩

/-- C9: dry-run has no side effects — whenever the apply flag is not set
the controller leaves the filesystem exactly as it was, whatever the
candidate list and file contents. -/
theorem c9_dry_run_no_side_effects (fs : FS) (files : List String) :
    (mainRun false fs files).1 = fs := by
  by_cases hemp : files.isEmpty = true
  · simp only [mainRun, if_pos hemp]
  · cases hcc : collectChanges fs files with
    | error e => simp only [mainRun, if_neg hemp, hcc]
    | ok changes =>
      by_cases hch : changes.isEmpty = true
      · simp only [mainRun, if_neg hemp, hcc, if_pos hch]
      · simp only [mainRun, if_neg hemp, hcc, if_neg hch, applyLoop_dry]

lemma collectChanges_error (fs : FS) :
    ∀ (pre : List String) (bad : String) (post : List String),
      (∀ q ∈ pre, readOk fs q = true) → fsGet fs bad = some FileData.undecodable →
      collectChanges fs (pre ++ bad :: post) = .error bad := by
  intro pre
  induction pre with
  | nil =>
    intro bad post _ hbad
    rw [show ([] ++ bad :: post : List String) = bad :: post from rfl]
    simp only [collectChanges]
    rw [show readText fs bad = Except.error bad from by simp [readText, hbad]]
  | cons q pre' ih =>
    intro bad post hok hbad
    have hq : readOk fs q = true := hok q (by simp)
    cases hrq : readText fs q with
    | error e =>
      rw [readOk, hrq] at hq
      simp at hq
    | ok c =>
      rw [show ((q :: pre') ++ bad :: post : List String) = q :: (pre' ++ bad :: post)
        from rfl]
      simp only [collectChanges, hrq]
      rw [ih bad post (fun x hx => hok x (by simp [hx])) hbad]

/-- C8: decode-error propagation — if every candidate before some file
decodes cleanly and that file is undecodable, the run (in either mode)
aborts with the error naming that first failing file: the processor's
error is not caught, no per-file skipping happens, and no aggregate
reporting takes place. -/
theorem c8_decode_error_propagation (applyFlag : Bool) (fs : FS)
    (pre : List String) (bad : String) (post : List String)
    (hok : ∀ q ∈ pre, readOk fs q = true)
    (hbad : fsGet fs bad = some FileData.undecodable) :
    (mainRun applyFlag fs (pre ++ bad :: post)).2 = .error bad := by
  have hemp : (pre ++ bad :: post).isEmpty = false := by
    cases pre <;> rfl
  simp only [mainRun, hemp, Bool.false_eq_true, if_false,
    collectChanges_error fs pre bad post hok hbad]

/-- C8 witness: a clean file followed by an undecodable file aborts the
run with the undecodable file's path. -/
theorem c8_witness :
    (∀ q ∈ ["src/ok.py"],
      readOk [("src/ok.py", FileData.text ("x = 1\n".toList)),
        ("src/bad.py", FileData.undecodable)] q = true) ∧
    fsGet [("src/ok.py", FileData.text ("x = 1\n".toList)),
        ("src/bad.py", FileData.undecodable)] "src/bad.py"
      = some FileData.undecodable ∧
    (mainRun true [("src/ok.py", FileData.text ("x = 1\n".toList)),
        ("src/bad.py", FileData.undecodable)] (["src/ok.py"] ++ "src/bad.py" :: [])).2
      = .error "src/bad.py" :=
  ⟨by decide, by decide,
    c8_decode_error_propagation true _ ["src/ok.py"] "src/bad.py" [] (by decide) (by decide)⟩

/-- C10: implicit run-level atomicity — main collects every file's change
set before its first write, so in apply mode a decode failure anywhere in
the candidate list aborts the run with the filesystem byte-identical to
its initial state: zero files written or renamed. -/
theorem c10_run_atomicity (fs : FS) (pre : List String) (bad : String) (post : List String)
    (hok : ∀ q ∈ pre, readOk fs q = true)
    (hbad : fsGet fs bad = some FileData.undecodable) :
    (mainRun true fs (pre ++ bad :: post)).1 = fs ∧
    (mainRun true fs (pre ++ bad :: post)).2 = .error bad := by
  have hemp : (pre ++ bad :: post).isEmpty = false := by
    cases pre <;> rfl
  constructor <;>
    simp only [mainRun, hemp, Bool.false_eq_true, if_false,
      collectChanges_error fs pre bad post hok hbad]

/-- C10 witness: an apply-mode run over two clean files and one undecodable
file leaves the filesystem unchanged and reports the failing path. -/
theorem c10_witness :
    (∀ q ∈ ["src/a.py", "src/b.py"],
      readOk [("src/a.py", FileData.text ("from KIT import x\n".toList)),
        ("src/b.py", FileData.text ("y = 2\n".toList)),
        ("src/broken.py", FileData.undecodable)] q = true) ∧
    fsGet [("src/a.py", FileData.text ("from KIT import x\n".toList)),
        ("src/b.py", FileData.text ("y = 2\n".toList)),
        ("src/broken.py", FileData.undecodable)] "src/broken.py"
      = some FileData.undecodable ∧
    ((mainRun true [("src/a.py", FileData.text ("from KIT import x\n".toList)),
          ("src/b.py", FileData.text ("y = 2\n".toList)),
          ("src/broken.py", FileData.undecodable)]
        (["src/a.py", "src/b.py"] ++ "src/broken.py" :: [])).1
      = [("src/a.py", FileData.text ("from KIT import x\n".toList)),
          ("src/b.py", FileData.text ("y = 2\n".toList)),
          ("src/broken.py", FileData.undecodable)] ∧
      (mainRun true [("src/a.py", FileData.text ("from KIT import x\n".toList)),
          ("src/b.py", FileData.text ("y = 2\n".toList)),
          ("src/broken.py", FileData.undecodable)]
        (["src/a.py", "src/b.py"] ++ "src/broken.py" :: [])).2 = .error "src/broken.py") :=
  ⟨by decide, by decide,
    c10_run_atomicity _ ["src/a.py", "src/b.py"] "src/broken.py" [] (by decide) (by decide)⟩
